import Mathlib

/-!
Verification of the drug-mention pipeline core
(`python-pipeline/src/utils.py`, `python-pipeline/src/adhoc_queries.py`).

The Python code is shallowly embedded: Python `dict`s (which preserve
insertion order and have unique keys) are association lists over `String`
keys, Python `list`s are Lean lists, and functions that can raise are
`Except`/`Option` valued.  Each embedded definition mirrors the source
function it is named after.
-/

/-- One persisted mention: `{"title": ..., "date": ...}` where the date is
already rendered as an ISO calendar-date string. -/
structure Mention where
  title : String
  date : String
deriving DecidableEq, Repr

/-- A Python `dict` with `String` keys, as an insertion-ordered association
list.  Well-formed dicts have pairwise distinct keys. -/
abbrev Dict (α : Type) : Type := List (String × α)

/-- Lookup, mirroring Python `d.get(k)` / `d[k]`: the value of the first
binding of `k`. -/
def Dict.get? {α : Type} : Dict α → String → Option α
  | [], _ => none
  | (k', v) :: rest, k => if k' = k then some v else Dict.get? rest k

/-- Key membership, mirroring Python `k in d`. -/
def Dict.hasKey {α : Type} (d : Dict α) (k : String) : Bool :=
  (Dict.get? d k).isSome

/-- Assignment, mirroring Python `d[k] = v`: replaces the value of an
existing binding in place, otherwise appends the new binding at the end
(insertion order). -/
def Dict.set {α : Type} : Dict α → String → α → Dict α
  | [], k, v => [(k, v)]
  | (k', v') :: rest, k, v =>
    if k' = k then (k', v) :: rest else (k', v') :: Dict.set rest k v

/-- The keys of a dict, in insertion order (Python `d.keys()`). -/
def dictKeys {α : Type} (d : Dict α) : List String :=
  d.map Prod.fst

/-- source tag → list of mentions (innermost dict of the index). -/
abbrev SourceDict : Type := Dict (List Mention)

/-- journal → source dict (middle level of the index). -/
abbrev JournalDict : Type := Dict SourceDict

/-- drug → journal dict: the whole three-level mention index. -/
abbrev Graph : Type := Dict JournalDict

/-- The per-level policy of `merge_mention_graphs`: fold the second dict
into the first; a key present only in the second is adopted (`d1[k] = v`),
a key present in both is combined with `comb`.  `merge_mention_graphs`
applies this at the drug, journal and source levels. -/
def dmerge {α : Type} (comb : α → α → α) (d1 : Dict α) : Dict α → Dict α
  | [] => d1
  | (k, v) :: rest =>
    match Dict.get? d1 k with
    | some old => dmerge comb (Dict.set d1 k (comb old v)) rest
    | none => dmerge comb (Dict.set d1 k v) rest

/-- Source-level merge of `merge_mention_graphs`: missing source keys are
assigned, shared source keys are `extend`ed (list concatenation). -/
def mergeSources (s1 s2 : SourceDict) : SourceDict :=
  dmerge (fun a b => a ++ b) s1 s2

/-- Journal-level merge of `merge_mention_graphs`. -/
def mergeJournals (j1 j2 : JournalDict) : JournalDict :=
  dmerge mergeSources j1 j2

/-- `merge_mention_graphs(graph_1, graph_2)` from `utils.py`: deep merge of
two mention indices, drug level outermost. -/
def merge_mention_graphs (graph_1 graph_2 : Graph) : Graph :=
  dmerge mergeJournals graph_1 graph_2

/-- How an `Option`-valued lookup combines under `dmerge`: present in both
→ combined, present in one → that one, absent from both → absent. -/
def optMerge {α : Type} (comb : α → α → α) : Option α → Option α → Option α
  | some a, some b => some (comb a b)
  | some a, none => some a
  | none, some b => some b
  | none, none => none

/-- The leaf mention list of an index at `(drug, journal, source)`, if the
whole path exists. -/
def leafAt? (g : Graph) (drug journal source : String) : Option (List Mention) :=
  (Dict.get? g drug).bind fun jd =>
    (Dict.get? jd journal).bind fun sd => Dict.get? sd source

/-- The leaf mention list of an index at `(drug, journal, source)`, the
empty list when the path is absent. -/
def mentionsAt (g : Graph) (drug journal source : String) : List Mention :=
  (leafAt? g drug journal source).getD []

/-- Well-formedness of a mention index as produced by Python dicts: keys
are pairwise distinct at every level. -/
def WFGraph (g : Graph) : Prop :=
  (dictKeys g).Nodup ∧ ∀ p ∈ g, (dictKeys p.2).Nodup ∧ ∀ q ∈ p.2, (dictKeys q.2).Nodup

instance : DecidablePred WFGraph := fun g => by
  unfold WFGraph; infer_instance

/-! ### Basic dictionary lemmas -/

theorem Dict.get?_set_self {α : Type} (d : Dict α) (k : String) (v : α) :
    Dict.get? (Dict.set d k v) k = some v := by
  induction d with
  | nil => simp [Dict.set, Dict.get?]
  | cons p rest ih =>
    obtain ⟨k', v'⟩ := p
    by_cases h : k' = k <;> simp [Dict.set, Dict.get?, h, ih]

theorem Dict.get?_set_ne {α : Type} (d : Dict α) {k k' : String} (v : α)
    (h : k ≠ k') : Dict.get? (Dict.set d k v) k' = Dict.get? d k' := by
  induction d with
  | nil => simp [Dict.set, Dict.get?, h]
  | cons p rest ih =>
    obtain ⟨k₀, v₀⟩ := p
    by_cases h₀ : k₀ = k
    · subst h₀; simp [Dict.set, Dict.get?, h]
    · simp [Dict.set, Dict.get?, h₀, ih]

theorem Dict.get?_mem {α : Type} {d : Dict α} {k : String} {v : α}
    (h : Dict.get? d k = some v) : (k, v) ∈ d := by
  induction d with
  | nil => simp [Dict.get?] at h
  | cons p rest ih =>
    obtain ⟨k₀, v₀⟩ := p
    by_cases h₀ : k₀ = k
    · subst h₀
      simp [Dict.get?] at h
      simp [h]
    · simp [Dict.get?, h₀] at h
      exact List.mem_cons_of_mem _ (ih h)

theorem dictKeys_cons {α : Type} (k : String) (v : α) (d : Dict α) :
    dictKeys ((k, v) :: d) = k :: dictKeys d := rfl

theorem Dict.get?_eq_none_of_not_mem_keys {α : Type} {d : Dict α} {k : String}
    (h : k ∉ dictKeys d) : Dict.get? d k = none := by
  induction d with
  | nil => rfl
  | cons p rest ih =>
    obtain ⟨k₀, v₀⟩ := p
    rw [dictKeys_cons, List.mem_cons, not_or] at h
    have h1 : ¬ k₀ = k := fun hh => h.1 hh.symm
    simp [Dict.get?, h1, ih h.2]

theorem Dict.mem_keys_of_get?_eq_some {α : Type} {d : Dict α} {k : String} {v : α}
    (h : Dict.get? d k = some v) : k ∈ dictKeys d := by
  have := Dict.get?_mem h
  exact List.mem_map_of_mem Prod.fst this

theorem dictKeys_set_of_mem {α : Type} {d : Dict α} {k : String} (v : α)
    (h : k ∈ dictKeys d) : dictKeys (Dict.set d k v) = dictKeys d := by
  induction d with
  | nil => simp [dictKeys] at h
  | cons p rest ih =>
    obtain ⟨k₀, v₀⟩ := p
    by_cases h₀ : k₀ = k
    · simp [Dict.set, h₀, dictKeys_cons]
    · rw [dictKeys_cons, List.mem_cons] at h
      rcases h with h | h
      · exact absurd h.symm h₀
      · simp only [Dict.set, if_neg h₀, dictKeys_cons, ih h]

theorem dictKeys_set_of_not_mem {α : Type} {d : Dict α} {k : String} (v : α)
    (h : k ∉ dictKeys d) : dictKeys (Dict.set d k v) = dictKeys d ++ [k] := by
  induction d with
  | nil => simp [Dict.set, dictKeys]
  | cons p rest ih =>
    obtain ⟨k₀, v₀⟩ := p
    rw [dictKeys_cons, List.mem_cons, not_or] at h
    have h1 : ¬ k₀ = k := fun hh => h.1 hh.symm
    simp only [Dict.set, if_neg h1, dictKeys_cons, ih h.2, List.cons_append]

theorem Dict.mem_set {α : Type} {d : Dict α} {k : String} {v : α} {p : String × α}
    (h : p ∈ Dict.set d k v) : p ∈ d ∨ p = (k, v) := by
  induction d with
  | nil => simp [Dict.set] at h; simp [h]
  | cons q rest ih =>
    obtain ⟨k₀, v₀⟩ := q
    by_cases h₀ : k₀ = k
    · subst h₀
      simp [Dict.set] at h
      rcases h with h | h
      · right; simp [h]
      · left; simp [h]
    · simp [Dict.set, h₀] at h
      rcases h with h | h
      · left; simp [h]
      · rcases ih h with h' | h'
        · left; simp [h']
        · right; exact h'

theorem Dict.get?_isSome_of_mem_keys {α : Type} {d : Dict α} {k : String}
    (h : k ∈ dictKeys d) : ∃ v, Dict.get? d k = some v := by
  induction d with
  | nil => simp [dictKeys] at h
  | cons p rest ih =>
    obtain ⟨k₀, v₀⟩ := p
    by_cases h₀ : k₀ = k
    · exact ⟨v₀, by simp [Dict.get?, h₀]⟩
    · rw [dictKeys_cons, List.mem_cons] at h
      rcases h with h | h
      · exact absurd h.symm h₀
      · obtain ⟨v, hv⟩ := ih h
        exact ⟨v, by simp [Dict.get?, h₀, hv]⟩

/-! ### The merge characterization -/

theorem optMerge_none_left {α : Type} (comb : α → α → α) (o : Option α) :
    optMerge comb none o = o := by cases o <;> rfl

theorem optMerge_none_right {α : Type} (comb : α → α → α) (o : Option α) :
    optMerge comb o none = o := by cases o <;> rfl

/-- Lookup after a per-level merge step: present in both sides → combined,
otherwise the side that has it.  This is the heart of the deep-merge
correctness arguments. -/
theorem Dict.get?_dmerge {α : Type} (comb : α → α → α) (d2 d1 : Dict α)
    (h2 : (dictKeys d2).Nodup) (k : String) :
    Dict.get? (dmerge comb d1 d2) k = optMerge comb (Dict.get? d1 k) (Dict.get? d2 k) := by
  induction d2 generalizing d1 with
  | nil =>
    simp only [dmerge, Dict.get?, optMerge_none_right]
  | cons p rest ih =>
    obtain ⟨k₀, v₀⟩ := p
    rw [dictKeys_cons, List.nodup_cons] at h2
    by_cases hk : k₀ = k
    · subst hk
      have hrest : Dict.get? rest k₀ = none :=
        Dict.get?_eq_none_of_not_mem_keys h2.1
      cases h1 : Dict.get? d1 k₀ with
      | some old =>
        simp only [dmerge, h1]
        rw [ih _ h2.2, Dict.get?_set_self, hrest]
        simp [Dict.get?, optMerge]
      | none =>
        simp only [dmerge, h1]
        rw [ih _ h2.2, Dict.get?_set_self, hrest]
        simp [Dict.get?, optMerge, h1]
    · have hset : ∀ (v : α) (d : Dict α), Dict.get? (Dict.set d k₀ v) k = Dict.get? d k :=
        fun v d => Dict.get?_set_ne d v hk
      cases h1 : Dict.get? d1 k₀ with
      | some old =>
        simp only [dmerge, h1]
        rw [ih _ h2.2, hset]
        simp [Dict.get?, hk]
      | none =>
        simp only [dmerge, h1]
        rw [ih _ h2.2, hset]
        simp [Dict.get?, hk]

/-- The two inner levels of `leafAt?`, for reasoning level by level. -/
def level2 (jd : JournalDict) (journal source : String) : Option (List Mention) :=
  (Dict.get? jd journal).bind fun sd => Dict.get? sd source

theorem level2_mergeJournals (jd1 jd2 : JournalDict)
    (hk : (dictKeys jd2).Nodup) (hs : ∀ q ∈ jd2, (dictKeys q.2).Nodup)
    (j s : String) :
    level2 (mergeJournals jd1 jd2) j s =
      optMerge (fun a b => a ++ b) (level2 jd1 j s) (level2 jd2 j s) := by
  unfold level2 mergeJournals
  rw [Dict.get?_dmerge _ _ _ hk]
  cases h1 : Dict.get? jd1 j with
  | none =>
    cases h2 : Dict.get? jd2 j with
    | none => rfl
    | some sd2 =>
      simp only [optMerge_none_left, Option.none_bind', Option.some_bind',
        optMerge_none_left]
  | some sd1 =>
    cases h2 : Dict.get? jd2 j with
    | none =>
      simp only [optMerge_none_right, Option.none_bind', Option.some_bind',
        optMerge_none_right]
    | some sd2 =>
      have hsd2 : (dictKeys sd2).Nodup := hs _ (Dict.get?_mem h2)
      show (some (mergeSources sd1 sd2)).bind (fun sd => Dict.get? sd s) = _
      simp only [Option.some_bind']
      unfold mergeSources
      rw [Dict.get?_dmerge _ _ _ hsd2 s]

theorem leafAt?_merge (g1 g2 : Graph) (h2 : WFGraph g2) (d j s : String) :
    leafAt? (merge_mention_graphs g1 g2) d j s =
      optMerge (fun a b => a ++ b) (leafAt? g1 d j s) (leafAt? g2 d j s) := by
  obtain ⟨h2k, h2j⟩ := h2
  show (Dict.get? (merge_mention_graphs g1 g2) d).bind (fun jd => level2 jd j s) =
    optMerge _ ((Dict.get? g1 d).bind (fun jd => level2 jd j s))
      ((Dict.get? g2 d).bind (fun jd => level2 jd j s))
  unfold merge_mention_graphs
  rw [Dict.get?_dmerge _ _ _ h2k]
  cases h1 : Dict.get? g1 d with
  | none =>
    cases hg2 : Dict.get? g2 d with
    | none => rfl
    | some jd2 =>
      simp only [optMerge_none_left, Option.none_bind', Option.some_bind',
        optMerge_none_left]
  | some jd1 =>
    cases hg2 : Dict.get? g2 d with
    | none =>
      simp only [optMerge_none_right, Option.none_bind', Option.some_bind',
        optMerge_none_right]
    | some jd2 =>
      have hwf := h2j _ (Dict.get?_mem hg2)
      show (some (mergeJournals jd1 jd2)).bind (fun jd => level2 jd j s) = _
      simp only [Option.some_bind']
      exact level2_mergeJournals jd1 jd2 hwf.1 hwf.2 j s

theorem dictKeys_dmerge_of_subset {α : Type} (comb : α → α → α) (d2 d1 : Dict α)
    (h : ∀ k ∈ dictKeys d2, k ∈ dictKeys d1) :
    dictKeys (dmerge comb d1 d2) = dictKeys d1 := by
  induction d2 generalizing d1 with
  | nil => rfl
  | cons p rest ih =>
    obtain ⟨k₀, v₀⟩ := p
    have hk₀ : k₀ ∈ dictKeys d1 :=
      h k₀ (by rw [dictKeys_cons]; exact List.mem_cons_self _ _)
    have hrest : ∀ k ∈ dictKeys rest, k ∈ dictKeys d1 := fun k hk =>
      h k (by rw [dictKeys_cons]; exact List.mem_cons_of_mem _ hk)
    obtain ⟨v, hv⟩ := Dict.get?_isSome_of_mem_keys hk₀
    simp only [dmerge, hv]
    rw [ih _ (fun k hk => by rw [dictKeys_set_of_mem _ hk₀]; exact hrest k hk),
      dictKeys_set_of_mem _ hk₀]

/-! ### Example indices used by the concrete witnesses -/

def mA : Mention := ⟨"A trial", "2020-01-01"⟩

def mB : Mention := ⟨"B study", "2020-01-02"⟩

def gEx1 : Graph := [("Drug1", [("J1", [("PubMed", [mA]), ("Clinical Trial", [])])])]

def gEx2 : Graph :=
  [("Drug1", [("J1", [("PubMed", [mB]), ("Clinical Trial", [])])]),
   ("Drug2", [("J2", [("PubMed", []), ("Clinical Trial", [mB])])])]

/-- **C2.** For well-formed inputs, `merge_mention_graphs` loses no mention:
at each of the three levels a key present in both inputs is merged
recursively (leaf lists become primary ++ secondary, no deduplication); a
subtree present in only one input is carried into the result unchanged
(the `optMerge` one-sided cases); and every leaf list of the result is
exactly the concatenation of the two input leaf lists, so mentions are
preserved with multiplicity. -/
theorem merge_mention_graphs_complete (g1 g2 : Graph)
    (h1 : WFGraph g1) (h2 : WFGraph g2) :
    (∀ d, Dict.get? (merge_mention_graphs g1 g2) d =
        optMerge mergeJournals (Dict.get? g1 d) (Dict.get? g2 d))
  ∧ (∀ d jd1 jd2, Dict.get? g1 d = some jd1 → Dict.get? g2 d = some jd2 →
      ∀ j, Dict.get? (mergeJournals jd1 jd2) j =
        optMerge mergeSources (Dict.get? jd1 j) (Dict.get? jd2 j))
  ∧ (∀ d jd1 jd2 j sd1 sd2, Dict.get? g1 d = some jd1 → Dict.get? g2 d = some jd2 →
      Dict.get? jd1 j = some sd1 → Dict.get? jd2 j = some sd2 →
      ∀ s, Dict.get? (mergeSources sd1 sd2) s =
        optMerge (fun a b => a ++ b) (Dict.get? sd1 s) (Dict.get? sd2 s))
  ∧ (∀ d j s, mentionsAt (merge_mention_graphs g1 g2) d j s =
      mentionsAt g1 d j s ++ mentionsAt g2 d j s) := by
  obtain ⟨h2k, h2j⟩ := h2
  refine ⟨?_, ?_, ?_, ?_⟩
  · intro d
    exact Dict.get?_dmerge mergeJournals g2 g1 h2k d
  · intro d jd1 jd2 _ hg2 j
    exact Dict.get?_dmerge mergeSources jd2 jd1 (h2j _ (Dict.get?_mem hg2)).1 j
  · intro d jd1 jd2 j sd1 sd2 _ hg2 _ hj2 s
    exact Dict.get?_dmerge (fun a b => a ++ b) sd2 sd1
      ((h2j _ (Dict.get?_mem hg2)).2 _ (Dict.get?_mem hj2)) s
  · intro d j s
    unfold mentionsAt
    rw [leafAt?_merge g1 g2 ⟨h2k, h2j⟩ d j s]
    cases hx : leafAt? g1 d j s <;> cases hy : leafAt? g2 d j s <;>
      simp [optMerge]

theorem merge_mention_graphs_complete_witness :
    WFGraph gEx1 ∧ WFGraph gEx2 ∧
      mentionsAt (merge_mention_graphs gEx1 gEx2) "Drug1" "J1" "PubMed" = [mA, mB] := by
  refine ⟨by decide, by decide, ?_⟩
  have h := (merge_mention_graphs_complete gEx1 gEx2 (by decide) (by decide)).2.2.2
    "Drug1" "J1" "PubMed"
  rw [h]; decide

/-- **C7.** Merging a well-formed index with a structurally identical copy
of itself keeps the drug, journal and source key sets unchanged and turns
every leaf list `l` into `l ++ l` (twice the length, no deduplication);
consequently merge is not idempotent as soon as some leaf is non-empty. -/
theorem merge_mention_graphs_self (g : Graph) (h : WFGraph g) :
    dictKeys (merge_mention_graphs g g) = dictKeys g
  ∧ (∀ d jd, Dict.get? g d = some jd →
      Dict.get? (merge_mention_graphs g g) d = some (mergeJournals jd jd)
      ∧ dictKeys (mergeJournals jd jd) = dictKeys jd
      ∧ ∀ j sd, Dict.get? jd j = some sd →
          Dict.get? (mergeJournals jd jd) j = some (mergeSources sd sd)
          ∧ dictKeys (mergeSources sd sd) = dictKeys sd)
  ∧ (∀ d j s, leafAt? (merge_mention_graphs g g) d j s =
      (leafAt? g d j s).map (fun l => l ++ l))
  ∧ (∀ d j s, (mentionsAt (merge_mention_graphs g g) d j s).length =
      2 * (mentionsAt g d j s).length)
  ∧ ((∃ d j s, mentionsAt g d j s ≠ []) → merge_mention_graphs g g ≠ g) := by
  obtain ⟨hk, hj⟩ := h
  have hdouble : ∀ d j s, leafAt? (merge_mention_graphs g g) d j s =
      (leafAt? g d j s).map (fun l => l ++ l) := by
    intro d j s
    rw [leafAt?_merge g g ⟨hk, hj⟩ d j s]
    cases hx : leafAt? g d j s <;> simp [optMerge]
  have hlen : ∀ d j s, (mentionsAt (merge_mention_graphs g g) d j s).length =
      2 * (mentionsAt g d j s).length := by
    intro d j s
    unfold mentionsAt
    rw [hdouble d j s]
    cases hx : leafAt? g d j s <;> simp <;> omega
  refine ⟨?_, ?_, hdouble, hlen, ?_⟩
  · exact dictKeys_dmerge_of_subset mergeJournals g g (fun k hk => hk)
  · intro d jd hd
    have hwfd := hj _ (Dict.get?_mem hd)
    have h1 : Dict.get? (merge_mention_graphs g g) d = some (mergeJournals jd jd) := by
      unfold merge_mention_graphs
      rw [Dict.get?_dmerge mergeJournals g g hk d, hd]
      rfl
    refine ⟨h1, dictKeys_dmerge_of_subset mergeSources jd jd (fun k hk => hk), ?_⟩
    intro j sd hjd
    have h2 : Dict.get? (mergeJournals jd jd) j = some (mergeSources sd sd) := by
      unfold mergeJournals
      rw [Dict.get?_dmerge mergeSources jd jd hwfd.1 j, hjd]
      rfl
    exact ⟨h2, dictKeys_dmerge_of_subset (fun a b => a ++ b) sd sd (fun k hk => hk)⟩
  · rintro ⟨d, j, s, hne⟩ heq
    have := hlen d j s
    rw [heq] at this
    have hpos : (mentionsAt g d j s).length ≠ 0 := by
      intro h0
      exact hne (List.eq_nil_of_length_eq_zero h0)
    omega

theorem merge_mention_graphs_self_witness :
    WFGraph gEx1 ∧
      mentionsAt (merge_mention_graphs gEx1 gEx1) "Drug1" "J1" "PubMed" = [mA, mA] ∧
      merge_mention_graphs gEx1 gEx1 ≠ gEx1 := by
  have h := merge_mention_graphs_self gEx1 (by decide)
  refine ⟨by decide, ?_, ?_⟩
  · have := h.2.2.1 "Drug1" "J1" "PubMed"
    unfold mentionsAt
    rw [this]; decide
  · exact h.2.2.2.2 ⟨"Drug1", "J1", "PubMed", by decide⟩

/-! ### The drug matcher (`find_drugs_in_title`)

`re.search(r'\b' + re.escape(drug.lower()) + r'\b', title.lower())` is
embedded over `List Char`: the escaped drug name is a literal, so the
compiled pattern matches iff the literal occurs at some position with a
regex word boundary on each side.  `\w` is modelled by its ASCII ranges
(letters, digits, underscore), and `str.lower` by `Char.toLower`, which
likewise covers the ASCII range. -/

/-- A regex word character (Python `\w`, ASCII range): letter, digit or
underscore. -/
def isWordChar (c : Char) : Bool :=
  (48 ≤ c.toNat && c.toNat ≤ 57) || (65 ≤ c.toNat && c.toNat ≤ 90) ||
    (97 ≤ c.toNat && c.toNat ≤ 122) || c.toNat == 95

/-- `str.lower()` on the character list of a string. -/
def lowerStr (s : List Char) : List Char := s.map Char.toLower

/-- Whether position `i` of `s` holds a word character (out of range:
no). -/
def isWordAt (s : List Char) (i : Nat) : Bool :=
  match s[i]? with
  | some c => isWordChar c
  | none => false

/-- Regex `\b` at position `i` of `s` (0 ≤ i ≤ length): exactly one of the
two neighbouring positions holds a word character, the outside of the
string counting as non-word. -/
def wordBoundary (s : List Char) (i : Nat) : Bool :=
  (if i = 0 then false else isWordAt s (i - 1)) != isWordAt s i

/-- The literal `p` occurs in `s` at position `i`. -/
def occursAt (p s : List Char) (i : Nat) : Bool :=
  decide ((s.drop i).take p.length = p)

/-- `re.search` for the pattern `\b<literal p>\b` in `s`: some position
carries the literal with word boundaries on both sides. -/
def wbSearch (p s : List Char) : Bool :=
  (List.range (s.length + 1)).any fun i =>
    occursAt p s i && wordBoundary s i && wordBoundary s (i + p.length)

/-- `find_drugs_in_title(title, drug_list)` from `utils.py`: the entries of
`drug_list`, in vocabulary order, whose lowercased form occurs with word
boundaries in the lowercased title. -/
def find_drugs_in_title (title : String) (drug_list : List String) : List String :=
  drug_list.filter fun drug => wbSearch (lowerStr drug.data) (lowerStr title.data)

/-- Formalisation of the SPEC wording for the matcher (not of the code): a
vocabulary entry matches iff, after lowercasing both sides, it occurs in
the title bounded on the left by the string edge or a non-word character
and on the right by the string edge or a non-word character. -/
def specWholeWordB (v t : String) : Bool :=
  (List.range ((lowerStr t.data).length + 1)).any fun i =>
    occursAt (lowerStr v.data) (lowerStr t.data) i &&
      (i == 0 || !isWordAt (lowerStr t.data) (i - 1)) &&
      (i + (lowerStr v.data).length == (lowerStr t.data).length ||
        !isWordAt (lowerStr t.data) (i + (lowerStr v.data).length))

theorem toNat_ofNat_valid {n : Nat} (h : n.isValidChar) : (Char.ofNat n).toNat = n := by
  rw [Char.ofNat, dif_pos h]
  rfl

/-- Lowercasing does not change word-character status. -/
theorem isWordChar_toLower (c : Char) : isWordChar c.toLower = isWordChar c := by
  show isWordChar (if c.toNat ≥ 65 ∧ c.toNat ≤ 90 then Char.ofNat (c.toNat + 32) else c) = _
  split
  · next h =>
    have hv : (c.toNat + 32).isValidChar := Or.inl (by omega)
    have h1 : isWordChar (Char.ofNat (c.toNat + 32)) = true := by
      simp only [isWordChar, toNat_ofNat_valid hv, Bool.or_eq_true, Bool.and_eq_true,
        decide_eq_true_eq, beq_iff_eq]
      omega
    have h2 : isWordChar c = true := by
      simp only [isWordChar, Bool.or_eq_true, Bool.and_eq_true,
        decide_eq_true_eq, beq_iff_eq]
      omega
    rw [h1, h2]
  · rfl

theorem getElem?_drop_add {α : Type} (l : List α) (i k : Nat) :
    (l.drop i)[k]? = l[i + k]? := by
  induction i generalizing l with
  | zero => simp
  | succ n ih =>
    cases l with
    | nil => simp
    | cons a l =>
      have harith : n + 1 + k = (n + k) + 1 := by omega
      rw [List.drop_succ_cons, ih l, harith, List.getElem?_cons_succ]

theorem list_any_congr {α : Type} {f g : α → Bool} :
    ∀ (l : List α), (∀ a ∈ l, f a = g a) → l.any f = l.any g
  | [], _ => rfl
  | a :: l, h => by
    simp only [List.any_cons]
    rw [h a (List.mem_cons_self _ _), list_any_congr l (fun b hb => h b (List.mem_cons_of_mem _ hb))]

theorem getElem?_of_occursAt {p s : List Char} {i : Nat} (h : occursAt p s i = true)
    {k : Nat} (hk : k < p.length) : s[i + k]? = p[k]? := by
  have heq : (s.drop i).take p.length = p := of_decide_eq_true h
  conv_rhs => rw [← heq]
  rw [List.getElem?_take_of_lt hk, getElem?_drop_add]

theorem le_length_of_occursAt {p s : List Char} {i : Nat} (h : occursAt p s i = true)
    (hp : p ≠ []) : i + p.length ≤ s.length := by
  have heq : (s.drop i).take p.length = p := of_decide_eq_true h
  have hlen := congrArg List.length heq
  simp only [List.length_take, List.length_drop] at hlen
  have hpos : 0 < p.length := List.length_pos.mpr hp
  omega

theorem isWordAt_of_occursAt {p s : List Char} {i : Nat} (h : occursAt p s i = true)
    (hw : p.all isWordChar = true) {k : Nat} (hk : k < p.length) :
    isWordAt s (i + k) = true := by
  have hget : s[i + k]? = p[k]? := getElem?_of_occursAt h hk
  have hsome : p[k]? = some p[k] := List.getElem?_eq_getElem hk
  unfold isWordAt
  rw [hget, hsome]
  exact List.all_eq_true.mp hw _ (List.getElem?_mem hsome)

/-- Pointwise: for a non-empty all-word-character literal, the regex
word-boundary conditions coincide with the SPEC's "bounded by non-word
characters or string edges" conditions. -/
theorem wb_match_eq_spec (p s : List Char) (hp : p ≠ [])
    (hw : p.all isWordChar = true) (i : Nat) :
    (occursAt p s i && wordBoundary s i && wordBoundary s (i + p.length)) =
    (occursAt p s i && (i == 0 || !isWordAt s (i - 1)) &&
      (i + p.length == s.length || !isWordAt s (i + p.length))) := by
  cases hocc : occursAt p s i with
  | false => simp
  | true =>
    have hpos : 0 < p.length := List.length_pos.mpr hp
    have hfirst : isWordAt s i = true := by
      have := isWordAt_of_occursAt hocc hw hpos
      simpa using this
    have hlast : isWordAt s (i + p.length - 1) = true := by
      have hk : p.length - 1 < p.length := by omega
      have := isWordAt_of_occursAt hocc hw hk
      have harith : i + (p.length - 1) = i + p.length - 1 := by omega
      rwa [harith] at this
    have hb1 : wordBoundary s i = (i == 0 || !isWordAt s (i - 1)) := by
      unfold wordBoundary
      rw [hfirst]
      cases i with
      | zero => simp
      | succ n =>
        simp only [Nat.succ_ne_zero, if_neg, reduceIte, Nat.add_sub_cancel]
        cases hx : isWordAt s n <;> simp
    have hb2 : wordBoundary s (i + p.length) =
        (i + p.length == s.length || !isWordAt s (i + p.length)) := by
      unfold wordBoundary
      have hne : ¬ (i + p.length = 0) := by omega
      rw [if_neg hne, hlast]
      by_cases hE : i + p.length = s.length
      · have hout : isWordAt s (i + p.length) = false := by
          unfold isWordAt
          rw [List.getElem?_eq_none (by omega)]
        rw [hout]
        simp [hE]
      · have hbeq : (i + p.length == s.length) = false := by
          simp [hE]
        rw [hbeq]
        cases hx : isWordAt s (i + p.length) <;> simp
    rw [hb1, hb2]

theorem lowerStr_all_isWordChar {l : List Char} (h : l.all isWordChar = true) :
    (lowerStr l).all isWordChar = true := by
  unfold lowerStr
  rw [List.all_map]
  rw [List.all_eq_true] at h ⊢
  intro c hc
  show isWordChar c.toLower = true
  rw [isWordChar_toLower]
  exact h c hc

/-- **C1 (amended).** For vocabularies whose entries are non-empty and
consist of word characters (letters, digits, underscore) — which is the
case for drug names — `find_drugs_in_title` returns exactly the entries
that occur in the title bounded by non-word characters or string edges
after lowercasing both sides, in vocabulary order; in particular an
occurrence only inside a proper superstring is never reported.  (For
entries containing non-word characters the regex `\b` anchors diverge
from the SPEC's boundary wording, see the counterexample.) -/
theorem find_drugs_in_title_spec (title : String) (drug_list : List String)
    (hw : ∀ v ∈ drug_list, v.data ≠ [] ∧ v.data.all isWordChar = true) :
    find_drugs_in_title title drug_list =
      drug_list.filter (fun v => specWholeWordB v title) := by
  unfold find_drugs_in_title
  apply List.filter_congr
  intro v hv
  obtain ⟨hne, hall⟩ := hw v hv
  have hne2 : lowerStr v.data ≠ [] := by simp [lowerStr, hne]
  have hall2 : (lowerStr v.data).all isWordChar = true := lowerStr_all_isWordChar hall
  unfold wbSearch specWholeWordB
  exact list_any_congr _ (fun i _ => wb_match_eq_spec _ _ hne2 hall2 i)

/-- **C1, counterexample to the claim as stated.** Over all vocabularies
the claim fails: the entry `"!"` occurs in the title `"!"` bounded by
string edges on both sides, so the SPEC wording reports it, but the code's
pattern `\b\!\b` cannot match (no word character adjoins either edge), so
`find_drugs_in_title` returns `[]`. -/
theorem find_drugs_in_title_spec_counterexample :
    specWholeWordB "!" "!" = true ∧ find_drugs_in_title "!" ["!"] = [] ∧
      find_drugs_in_title "!" ["!"] ≠ ["!"].filter (fun v => specWholeWordB v "!") := by
  refine ⟨by decide, by decide, by decide⟩

theorem find_drugs_in_title_spec_witness :
    (∀ v ∈ ["Paracetamol"], v.data ≠ [] ∧ v.data.all isWordChar = true) ∧
      find_drugs_in_title "This is a title with Paracetamole" ["Paracetamol"] = [] ∧
      find_drugs_in_title "This is a title with paracetamol" ["Paracetamol"] = ["Paracetamol"] := by
  refine ⟨by decide, ?_, ?_⟩
  · rw [find_drugs_in_title_spec "This is a title with Paracetamole" ["Paracetamol"] (by decide)]
    decide
  · rw [find_drugs_in_title_spec "This is a title with paracetamol" ["Paracetamol"] (by decide)]
    decide

/-- **C10.** Each vocabulary position contributes at most one output
element: the multiplicity of any name in the output never exceeds its
multiplicity in the vocabulary, and a duplicate-free vocabulary yields a
duplicate-free result even when a drug occurs several times in the
title. -/
theorem find_drugs_in_title_count (title : String) (drug_list : List String) :
    (∀ v, (find_drugs_in_title title drug_list).count v ≤ drug_list.count v)
  ∧ (drug_list.Nodup → (find_drugs_in_title title drug_list).Nodup) := by
  constructor
  · intro v
    exact (List.filter_sublist drug_list).count_le v
  · intro h
    exact h.filter _

theorem find_drugs_in_title_count_witness :
    (["Paracetamol", "Ibuprofen"] : List String).Nodup ∧
      (find_drugs_in_title "Paracetamol and paracetamol" ["Paracetamol", "Ibuprofen"]).Nodup ∧
      find_drugs_in_title "Paracetamol and paracetamol" ["Paracetamol", "Ibuprofen"] =
        ["Paracetamol"] := by
  refine ⟨by decide,
    (find_drugs_in_title_count "Paracetamol and paracetamol" ["Paracetamol", "Ibuprofen"]).2
      (by decide), by decide⟩

/-! ### Ad-hoc query: related drugs in PubMed only (`adhoc_queries.py`) -/

/-- Inner helper `refereced_in_pubmed_only(target_drug, journal)` of
`get_related_drugs_in_pubmed_only` (source spelling kept): the journal is
a key under the drug, its `PubMed` list is truthy (non-empty) and its
`Clinical Trial` list is falsy (empty); missing source keys default to
`[]` via `.get(..., [])`. -/
def refereced_in_pubmed_only (mentions_graph : Graph) (target_drug journal : String) : Bool :=
  match Dict.get? mentions_graph target_drug with
  | none => false
  | some jd =>
    match Dict.get? jd journal with
    | none => false
    | some sd =>
      !((Dict.get? sd "PubMed").getD []).isEmpty &&
        ((Dict.get? sd "Clinical Trial").getD []).isEmpty

/-- Python `set.add`: insert if not already present. -/
def setAdd (l : List String) (x : String) : List String :=
  if x ∈ l then l else l ++ [x]

/-- One iteration of the final loop of `get_related_drugs_in_pubmed_only`:
skip the target drug, otherwise add the drug when it is PubMed-exclusive
in one of the target's PubMed-exclusive journals. -/
def relatedStep (mentions_graph : Graph) (target_drug : String)
    (pubmed_journals : List String) (related_drugs : List String)
    (p : String × JournalDict) : List String :=
  if p.1 = target_drug then related_drugs
  else if pubmed_journals.any
      (fun journal => refereced_in_pubmed_only mentions_graph p.1 journal) then
    setAdd related_drugs p.1
  else related_drugs

/-- `get_related_drugs_in_pubmed_only(mentions_graph, target_drug)` from
`adhoc_queries.py`; the Python sets are modelled as duplicate-free lists
in first-insertion order. -/
def get_related_drugs_in_pubmed_only (mentions_graph : Graph) (target_drug : String) :
    List String :=
  let pubmed_journals :=
    (match Dict.get? mentions_graph target_drug with
     | none => ([] : List String)
     | some jd => dictKeys jd).filter
      (fun journal => refereced_in_pubmed_only mentions_graph target_drug journal)
  mentions_graph.foldl (relatedStep mentions_graph target_drug pubmed_journals) []

/-- Formalisation of the SPEC wording: journal `j` is PubMed-exclusive for
drug `d` iff `d` has at least one PubMed mention in `j` and zero Clinical
Trial mentions in `j`. -/
def pubmedExclusiveSpec (g : Graph) (d j : String) : Prop :=
  mentionsAt g d j "PubMed" ≠ [] ∧ mentionsAt g d j "Clinical Trial" = []

theorem refereced_iff (g : Graph) (d j : String) :
    refereced_in_pubmed_only g d j = true ↔ pubmedExclusiveSpec g d j := by
  cases hd : Dict.get? g d with
  | none => simp [refereced_in_pubmed_only, pubmedExclusiveSpec, mentionsAt, leafAt?, hd]
  | some jd =>
    cases hj : Dict.get? jd j with
    | none => simp [refereced_in_pubmed_only, pubmedExclusiveSpec, mentionsAt, leafAt?, hd, hj]
    | some sd =>
      simp [refereced_in_pubmed_only, pubmedExclusiveSpec, mentionsAt, leafAt?, hd, hj,
        List.isEmpty_iff]

theorem refereced_path {g : Graph} {d j : String}
    (h : refereced_in_pubmed_only g d j = true) :
    ∃ jd, Dict.get? g d = some jd ∧ j ∈ dictKeys jd := by
  cases hd : Dict.get? g d with
  | none => simp [refereced_in_pubmed_only, hd] at h
  | some jd =>
    simp only [refereced_in_pubmed_only, hd] at h
    cases hj : Dict.get? jd j with
    | none => rw [hj] at h; exact absurd h (by simp)
    | some sd => exact ⟨jd, rfl, Dict.mem_keys_of_get?_eq_some hj⟩

theorem mem_setAdd {l : List String} {x y : String} :
    x ∈ setAdd l y ↔ x ∈ l ∨ x = y := by
  unfold setAdd
  by_cases h : y ∈ l
  · simp only [if_pos h]
    constructor
    · exact Or.inl
    · rintro (hx | rfl)
      · exact hx
      · exact h
  · simp [if_neg h]

theorem mem_foldl_relatedStep (g : Graph) (target : String) (pj : List String) :
    ∀ (entries : List (String × JournalDict)) (acc : List String) (x : String),
      (x ∈ entries.foldl (relatedStep g target pj) acc ↔
        x ∈ acc ∨ ∃ p ∈ entries, p.1 = x ∧ x ≠ target ∧
          pj.any (fun j => refereced_in_pubmed_only g x j) = true) := by
  intro entries
  induction entries with
  | nil => simp
  | cons p rest ih =>
    intro acc x
    rw [List.foldl_cons, ih]
    show (x ∈ relatedStep g target pj acc p ∨ _) ↔ _
    unfold relatedStep
    constructor
    · rintro (hx | ⟨q, hq, hq1, hq2, hq3⟩)
      · by_cases h1 : p.1 = target
        · rw [if_pos h1] at hx
          exact Or.inl hx
        · rw [if_neg h1] at hx
          by_cases h2 : pj.any (fun j => refereced_in_pubmed_only g p.1 j) = true
          · rw [if_pos h2] at hx
            rcases mem_setAdd.mp hx with hx | rfl
            · exact Or.inl hx
            · exact Or.inr ⟨p, List.mem_cons_self _ _, rfl, fun hc => h1 (hc ▸ rfl), h2⟩
          · rw [if_neg h2] at hx
            exact Or.inl hx
      · exact Or.inr ⟨q, List.mem_cons_of_mem _ hq, hq1, hq2, hq3⟩
    · rintro (hx | ⟨q, hq, hq1, hq2, hq3⟩)
      · left
        by_cases h1 : p.1 = target
        · rw [if_pos h1]; exact hx
        · rw [if_neg h1]
          by_cases h2 : pj.any (fun j => refereced_in_pubmed_only g p.1 j) = true
          · rw [if_pos h2]; exact mem_setAdd.mpr (Or.inl hx)
          · rw [if_neg h2]; exact hx
      · rcases List.mem_cons.mp hq with rfl | hq'
        · left
          have h1 : ¬ q.1 = target := fun hc => hq2 (hq1 ▸ hc)
          rw [if_neg h1, if_pos (hq1 ▸ hq3)]
          exact mem_setAdd.mpr (Or.inr hq1.symm)
        · right
          exact ⟨q, hq', hq1, hq2, hq3⟩

/-- The concrete two-drug index of the claim's worked example. -/
def gExC5 : Graph :=
  [("DrugA", [("J1", [("PubMed", [mA]), ("Clinical Trial", [])])]),
   ("DrugB", [("J1", [("PubMed", [mB]), ("Clinical Trial", [])])])]

/-- **C5.** `get_related_drugs_in_pubmed_only` returns exactly the drugs
distinct from the target that share a journal which is PubMed-exclusive
(≥ 1 PubMed mention, 0 Clinical Trial mentions) for both the target and
the other drug; it is empty when the target has no PubMed-exclusive
journal; and on the claim's two-drug example the call with target
`"DrugA"` returns `{"DrugB"}`. -/
theorem get_related_drugs_spec (g : Graph) (target : String) :
    (∀ x, x ∈ get_related_drugs_in_pubmed_only g target ↔
      (x ≠ target ∧ ∃ j, pubmedExclusiveSpec g target j ∧ pubmedExclusiveSpec g x j))
  ∧ ((∀ j, refereced_in_pubmed_only g target j = false) →
      get_related_drugs_in_pubmed_only g target = [])
  ∧ get_related_drugs_in_pubmed_only gExC5 "DrugA" = ["DrugB"] := by
  have hmain : ∀ x, x ∈ get_related_drugs_in_pubmed_only g target ↔
      (x ≠ target ∧ ∃ j, pubmedExclusiveSpec g target j ∧ pubmedExclusiveSpec g x j) := by
    intro x
    unfold get_related_drugs_in_pubmed_only
    rw [mem_foldl_relatedStep]
    simp only [List.not_mem_nil, false_or]
    constructor
    · rintro ⟨q, _, rfl, hx2, hx3⟩
      refine ⟨hx2, ?_⟩
      obtain ⟨j, hjmem, hjref⟩ := List.any_eq_true.mp hx3
      have hjfil := List.mem_filter.mp hjmem
      exact ⟨j, (refereced_iff g target j).mp hjfil.2, (refereced_iff g q.1 j).mp hjref⟩
    · rintro ⟨hne, j, hT, hX⟩
      have hTb := (refereced_iff g target j).mpr hT
      have hXb := (refereced_iff g x j).mpr hX
      obtain ⟨jdt, hjdt, hjmem⟩ := refereced_path hTb
      obtain ⟨jdx, hjdx, _⟩ := refereced_path hXb
      refine ⟨(x, jdx), Dict.get?_mem hjdx, rfl, hne, ?_⟩
      refine List.any_eq_true.mpr ⟨j, ?_, hXb⟩
      rw [hjdt]
      exact List.mem_filter.mpr ⟨hjmem, hTb⟩
  refine ⟨hmain, ?_, by decide⟩
  intro hall
  rw [List.eq_nil_iff_forall_not_mem]
  intro x hx
  obtain ⟨_, j, hT, _⟩ := (hmain x).mp hx
  exact absurd ((refereced_iff g target j).mpr hT) (by simp [hall j])

theorem get_related_drugs_spec_witness :
    (∀ j, refereced_in_pubmed_only gExC5 "DrugX" j = false) ∧
      get_related_drugs_in_pubmed_only gExC5 "DrugX" = [] := by
  have hall : ∀ j, refereced_in_pubmed_only gExC5 "DrugX" j = false := by
    intro j
    have hd : Dict.get? gExC5 "DrugX" = none := by decide
    simp [refereced_in_pubmed_only, hd]
  exact ⟨hall, (get_related_drugs_spec gExC5 "DrugX").2.1 hall⟩

/-! ### Ad-hoc query: journal with most unique drugs (`adhoc_queries.py`) -/

/-- The inverse index `journal → set of lowercased drug names` built by
`get_journal_with_most_unique_drugs`; Python's `defaultdict(set)` is
modelled as a dict of duplicate-free lists in first-insertion order. -/
def journalDrugs (mentions_graph : Graph) : Dict (List String) :=
  mentions_graph.foldl
    (fun acc p =>
      p.2.foldl
        (fun acc q => Dict.set acc q.1 (setAdd ((Dict.get? acc q.1).getD []) p.1.toLower))
        acc)
    []

/-- Python `max(journal_drugs, key=lambda j: len(journal_drugs[j]))`: the
first key in iteration (= insertion) order attaining the maximal count —
`max` replaces the running best only on strictly greater keys; `none` for
an empty dict (Python raises `ValueError`).  The count is carried along,
matching the returned `len(journal_drugs[max_journal])` since the built
dict has unique keys. -/
def maxByCount (jd : Dict (List String)) : Option (String × Nat) :=
  match jd with
  | [] => none
  | (j, s) :: rest =>
    some (rest.foldl
      (fun best q => if q.2.length > best.2 then (q.1, q.2.length) else best)
      (j, s.length))

/-- `get_journal_with_most_unique_drugs(mentions_graph)` from
`adhoc_queries.py` (dict input path). -/
def get_journal_with_most_unique_drugs (mentions_graph : Graph) : Option (String × Nat) :=
  maxByCount (journalDrugs mentions_graph)

/-- Tie between two journals, fed in reverse-lexicographic insertion
order. -/
def gExC3 : Graph :=
  [("DrugA", [("ZJournal", [("PubMed", [mA]), ("Clinical Trial", [])])]),
   ("DrugB", [("AJournal", [("PubMed", [mB]), ("Clinical Trial", [])])])]

/-- **C3.** Tie-break behaviour of the code at a concrete tie: both
journals index one unique drug, yet the function returns `"ZJournal"` —
the first journal in insertion order — not the lexicographically smallest
`"AJournal"` that the claim (and the spec's normative tie-break policy)
requires. -/
theorem get_journal_tie_break_bug :
    get_journal_with_most_unique_drugs gExC3 = some ("ZJournal", 1) ∧
      "AJournal".data < "ZJournal".data ∧
      get_journal_with_most_unique_drugs gExC3 ≠ some ("AJournal", 1) := by
  refine ⟨by decide, by decide, by decide⟩

/-! ### Date parsing (`parse_date`) -/

structure SimpleDate where
  year : Nat
  month : Nat
  day : Nat
deriving DecidableEq, Repr

/-- The `ValueError("Date format for ... not recognized")` raised by
`parse_date`; named after the spec's error taxonomy. -/
inductive DateError where
  | notRecognized (date_str : String)
deriving DecidableEq, Repr

def isLeapYear (y : Nat) : Bool :=
  (y % 4 == 0 && y % 100 != 0) || y % 400 == 0

def daysInMonth (y m : Nat) : Nat :=
  if m = 2 then (if isLeapYear y then 29 else 28)
  else if m = 4 ∨ m = 6 ∨ m = 9 ∨ m = 11 then 30 else 31

def mkValidDate (y m d : Nat) : Option SimpleDate :=
  if 1 ≤ m ∧ m ≤ 12 ∧ 1 ≤ d ∧ d ≤ daysInMonth y m then some ⟨y, m, d⟩ else none

/-- Split a character list at every occurrence of `sep` (like
`str.split(sep)`); used to model the literal separators of the three
`strptime` formats. -/
def splitChar (sep : Char) : List Char → List (List Char)
  | [] => [[]]
  | c :: rest =>
    match splitChar sep rest with
    | [] => [[]]
    | g :: gs => if c = sep then [] :: g :: gs else (c :: g) :: gs

def digitsVal (l : List Char) : Nat :=
  l.foldl (fun n c => n * 10 + (c.toNat - 48)) 0

/-- A `strptime` numeric field: between `minLen` and `maxLen` digits. -/
def parseNumField (l : List Char) (minLen maxLen : Nat) : Option Nat :=
  if minLen ≤ l.length ∧ l.length ≤ maxLen ∧ l.all Char.isDigit = true then
    some (digitsVal l)
  else none

def monthNames : List String :=
  ["January", "February", "March", "April", "May", "June", "July",
   "August", "September", "October", "November", "December"]

/-- `%B`: a full English month name, case-insensitively. -/
def monthFromName (l : List Char) : Option Nat :=
  (monthNames.findIdx? (fun m => lowerStr m.data == lowerStr l)).map (· + 1)

/-- `pd.to_datetime(date_str, format="%d/%m/%Y")`: 1-2 digit day, `/`,
1-2 digit month, `/`, 4-digit year, forming a valid calendar date.  (The
pandas `Timestamp` representable range is not modelled; out-of-range
years also raise a `ValueError` subclass in pandas and are caught the
same way.) -/
def tryFormatDMY (date_str : String) : Option SimpleDate :=
  match splitChar '/' date_str.data with
  | [ds, ms, ys] =>
    (parseNumField ds 1 2).bind fun d =>
      (parseNumField ms 1 2).bind fun m =>
        (parseNumField ys 4 4).bind fun y => mkValidDate y m d
  | _ => none

/-- `pd.to_datetime(date_str, format="%Y-%m-%d")`. -/
def tryFormatYMD (date_str : String) : Option SimpleDate :=
  match splitChar '-' date_str.data with
  | [ys, ms, ds] =>
    (parseNumField ys 4 4).bind fun y =>
      (parseNumField ms 1 2).bind fun m =>
        (parseNumField ds 1 2).bind fun d => mkValidDate y m d
  | _ => none

/-- `pd.to_datetime(date_str, format="%d %B %Y")`. -/
def tryFormatDBY (date_str : String) : Option SimpleDate :=
  match splitChar ' ' date_str.data with
  | [ds, bs, ys] =>
    (parseNumField ds 1 2).bind fun d =>
      (monthFromName bs).bind fun m =>
        (parseNumField ys 4 4).bind fun y => mkValidDate y m d
  | _ => none

/-- `parse_date(date_str)` from `utils.py`: try `"%d/%m/%Y"`,
`"%Y-%m-%d"`, `"%d %B %Y"` in this fixed order, return the first
successful parse; raise `ValueError` when no format matches. -/
def parse_date (date_str : String) : Except DateError SimpleDate :=
  match tryFormatDMY date_str with
  | some d => .ok d
  | none =>
    match tryFormatYMD date_str with
    | some d => .ok d
    | none =>
      match tryFormatDBY date_str with
      | some d => .ok d
      | none => .error (.notRecognized date_str)

/-- **C9.** `parse_date` tries the three formats `DD/MM/YYYY`,
`YYYY-MM-DD`, `D Month YYYY` in that fixed order, returns the calendar
date of the first format that parses, and fails with its
format-not-recognized error (the code's `ValueError`, the spec's
`DateFormatError`) instead of returning a value when none matches. -/
theorem parse_date_first_success (date_str : String) :
    (∀ d, tryFormatDMY date_str = some d → parse_date date_str = .ok d)
  ∧ (tryFormatDMY date_str = none → ∀ d, tryFormatYMD date_str = some d →
      parse_date date_str = .ok d)
  ∧ (tryFormatDMY date_str = none → tryFormatYMD date_str = none →
      ∀ d, tryFormatDBY date_str = some d → parse_date date_str = .ok d)
  ∧ (tryFormatDMY date_str = none → tryFormatYMD date_str = none →
      tryFormatDBY date_str = none →
      parse_date date_str = .error (.notRecognized date_str)) := by
  refine ⟨?_, ?_, ?_, ?_⟩ <;> intros <;> simp [parse_date, *]

theorem parse_date_first_success_witness :
    tryFormatDMY "1 January 2020" = none ∧ tryFormatYMD "1 January 2020" = none ∧
      tryFormatDBY "1 January 2020" = some ⟨2020, 1, 1⟩ ∧
      parse_date "1 January 2020" = .ok ⟨2020, 1, 1⟩ ∧
      parse_date "01/02/2021" = .ok ⟨2021, 2, 1⟩ ∧
      parse_date "01-01-2020" = .error (.notRecognized "01-01-2020") := by
  refine ⟨by decide, by decide, by decide, ?_, ?_, ?_⟩
  · exact (parse_date_first_success "1 January 2020").2.2.1 (by decide) (by decide)
      ⟨2020, 1, 1⟩ (by decide)
  · exact (parse_date_first_success "01/02/2021").1 ⟨2021, 2, 1⟩ (by decide)
  · exact (parse_date_first_success "01-01-2020").2.2.2 (by decide) (by decide) (by decide)

/-! ### The index builder (`process_mentions`)

A DataFrame row is a field-name → value dict; `row['date']` holds the
already-parsed timestamp, and `str(row['date'].date())` is modelled as the
stored ISO string itself.  A missing column raises `KeyError`, as does
appending to `graph[drug][journal][source_name]` when `source_name` is not
a key of the node; both are modelled by `PyErr.keyError`.  An `Except`
error discards the partially mutated accumulator, which is unobservable
for the claims below (they only concern the `.ok` result and whether an
error occurs). -/

abbrev Row : Type := Dict String

inductive PyErr where
  | keyError (key : String)
deriving DecidableEq, Repr

/-- `row[field]`. -/
def getField (row : Row) (field : String) : Except PyErr String :=
  match Dict.get? row field with
  | some v => .ok v
  | none => .error (.keyError field)

/-- The two node-initialization `if`s of `process_mentions`: ensure
`graph[drug]` exists and `graph[drug][journal]` exists, a fresh journal
node being `{"PubMed": [], "Clinical Trial": []}`.  (When the journal is
already present the graph is returned unchanged; when it is absent the
drug binding is written with the extended journal dict, which coincides
with the in-place Python mutations value-wise.) -/
def ensureNode (graph : Graph) (drug journal : String) : Graph :=
  let jd := (Dict.get? graph drug).getD []
  match Dict.get? jd journal with
  | some _ => graph
  | none =>
    Dict.set graph drug (Dict.set jd journal [("PubMed", []), ("Clinical Trial", [])])

/-- Body of `for drug in found_drugs`: ensure the node, then append
`{"title": ..., "date": ...}` to `graph[drug][row['journal']][source_name]`
(raising `KeyError` when `source_name` is not a key of the node). -/
def processDrug (graph : Graph) (drug : String) (row : Row) (source_name : String) :
    Except PyErr Graph :=
  match getField row "journal" with
  | .error e => .error e
  | .ok journal =>
    let graph2 := ensureNode graph drug journal
    match getField row "title" with
    | .error e => .error e
    | .ok title =>
      match getField row "date" with
      | .error e => .error e
      | .ok date =>
        let jd := (Dict.get? graph2 drug).getD []
        let sd := (Dict.get? jd journal).getD []
        match Dict.get? sd source_name with
        | none => .error (.keyError source_name)
        | some mentions =>
          .ok (Dict.set graph2 drug (Dict.set jd journal
            (Dict.set sd source_name (mentions ++ [⟨title, date⟩]))))

/-- The inner loop of `process_mentions` over the drugs found in the
row's title. -/
def processRowDrugs (graph : Graph) (row : Row) (source_name : String) :
    List String → Except PyErr Graph
  | [] => .ok graph
  | drug :: rest =>
    match processDrug graph drug row source_name with
    | .error e => .error e
    | .ok g2 => processRowDrugs g2 row source_name rest

/-- One iteration of `for _, row in df.iterrows()`. -/
def processRow (graph : Graph) (row : Row) (drugs_list : List String)
    (source_name : String) : Except PyErr Graph :=
  match getField row "title" with
  | .error e => .error e
  | .ok title => processRowDrugs graph row source_name (find_drugs_in_title title drugs_list)

/-- `process_mentions(df, drugs_list, source_name, graph)` from `utils.py`
(`graph=None` defaults to `{}` at call sites). -/
def process_mentions (df : List Row) (drugs_list : List String) (source_name : String)
    (graph : Graph) : Except PyErr Graph :=
  match df with
  | [] => .ok graph
  | row :: rest =>
    match processRow graph row drugs_list source_name with
    | .error e => .error e
    | .ok g2 => process_mentions rest drugs_list source_name g2

/-- A (drug, journal) node carrying both source tags. -/
def shapedJD (jd : JournalDict) : Bool :=
  jd.all fun q => (Dict.get? q.2 "PubMed").isSome && (Dict.get? q.2 "Clinical Trial").isSome

/-- Builder shape invariant: every (drug, journal) node carries both
source-tag keys. -/
def shapedB (g : Graph) : Bool :=
  g.all fun p => shapedJD p.2

/-- All three required record fields are present. -/
def hasRequiredFields (row : Row) : Bool :=
  (Dict.get? row "title").isSome && (Dict.get? row "journal").isSome &&
    (Dict.get? row "date").isSome

theorem shapedJD_of_get? {g : Graph} {drug : String} {jd : JournalDict}
    (hg : shapedB g = true) (h : Dict.get? g drug = some jd) : shapedJD jd = true := by
  rw [shapedB, List.all_eq_true] at hg
  exact hg _ (Dict.get?_mem h)

theorem nodeTags_of_get? {jd : JournalDict} {journal : String} {sd : SourceDict}
    (hjd : shapedJD jd = true) (h : Dict.get? jd journal = some sd) :
    (Dict.get? sd "PubMed").isSome = true ∧ (Dict.get? sd "Clinical Trial").isSome = true := by
  rw [shapedJD, List.all_eq_true] at hjd
  have := hjd _ (Dict.get?_mem h)
  simp only [Bool.and_eq_true] at this
  exact this

theorem shapedB_set {g : Graph} {drug : String} {jd : JournalDict}
    (hg : shapedB g = true) (hjd : shapedJD jd = true) :
    shapedB (Dict.set g drug jd) = true := by
  rw [shapedB, List.all_eq_true] at hg ⊢
  intro p hp
  rcases Dict.mem_set hp with h | h
  · exact hg p h
  · rw [h]
    exact hjd

theorem shapedJD_set {jd : JournalDict} {journal : String} {sd : SourceDict}
    (h : shapedJD jd = true)
    (hsd : (Dict.get? sd "PubMed").isSome = true ∧ (Dict.get? sd "Clinical Trial").isSome = true) :
    shapedJD (Dict.set jd journal sd) = true := by
  rw [shapedJD, List.all_eq_true] at h ⊢
  intro q hq
  rcases Dict.mem_set hq with hh | hh
  · exact h q hh
  · rw [hh]
    simp only [Bool.and_eq_true]
    exact hsd

theorem get?_set_isSome_of_isSome {α : Type} {d : Dict α} {tag : String} (k : String) (v : α)
    (h : (Dict.get? d tag).isSome = true) : (Dict.get? (Dict.set d k v) tag).isSome = true := by
  by_cases hk : k = tag
  · subst hk
    rw [Dict.get?_set_self]
    rfl
  · rw [Dict.get?_set_ne d v hk]
    exact h

theorem ensureNode_spec (g : Graph) (drug journal : String) (hg : shapedB g = true) :
    shapedB (ensureNode g drug journal) = true ∧
    ∃ jd sd, Dict.get? (ensureNode g drug journal) drug = some jd ∧
      Dict.get? jd journal = some sd ∧
      (Dict.get? sd "PubMed").isSome = true ∧
      (Dict.get? sd "Clinical Trial").isSome = true := by
  have hjd0shaped : shapedJD ((Dict.get? g drug).getD []) = true := by
    cases hd : Dict.get? g drug with
    | none => rfl
    | some jd => exact shapedJD_of_get? hg hd
  cases hj : Dict.get? ((Dict.get? g drug).getD []) journal with
  | some sd =>
    have hEN : ensureNode g drug journal = g := by
      unfold ensureNode
      simp only [hj]
    rw [hEN]
    refine ⟨hg, ?_⟩
    cases hd : Dict.get? g drug with
    | none =>
      rw [hd] at hj
      exact absurd hj (by simp [Dict.get?])
    | some jd =>
      rw [hd] at hj
      simp only [Option.getD_some] at hj
      have htags := nodeTags_of_get? (shapedJD_of_get? hg hd) hj
      exact ⟨jd, sd, rfl, hj, htags.1, htags.2⟩

  | none =>
    have hEN : ensureNode g drug journal =
        Dict.set g drug (Dict.set ((Dict.get? g drug).getD []) journal
          [("PubMed", []), ("Clinical Trial", [])]) := by
      unfold ensureNode
      simp only [hj]
    rw [hEN]
    constructor
    · exact shapedB_set hg (shapedJD_set hjd0shaped ⟨rfl, rfl⟩)
    · exact ⟨_, _, Dict.get?_set_self _ _ _, Dict.get?_set_self _ _ _, rfl, rfl⟩

theorem processDrug_ok (g : Graph) (drug : String) (row : Row) (src : String)
    (hg : shapedB g = true)
    (hsrc : src = "PubMed" ∨ src = "Clinical Trial")
    (hjf : (Dict.get? row "journal").isSome = true)
    (htf : (Dict.get? row "title").isSome = true)
    (hdf : (Dict.get? row "date").isSome = true) :
    ∃ g2, processDrug g drug row src = .ok g2 ∧ shapedB g2 = true := by
  obtain ⟨journal, hjv⟩ := Option.isSome_iff_exists.mp hjf
  obtain ⟨title, htv⟩ := Option.isSome_iff_exists.mp htf
  obtain ⟨date, hdv⟩ := Option.isSome_iff_exists.mp hdf
  obtain ⟨hshape2, jd, sd, hjd, hsd, hP, hC⟩ := ensureNode_spec g drug journal hg
  have hsrcSome : (Dict.get? sd src).isSome = true := by
    rcases hsrc with rfl | rfl
    · exact hP
    · exact hC
  obtain ⟨mentions, hm⟩ := Option.isSome_iff_exists.mp hsrcSome
  have heq : processDrug g drug row src =
      .ok (Dict.set (ensureNode g drug journal) drug (Dict.set jd journal
        (Dict.set sd src (mentions ++ [⟨title, date⟩])))) := by
    simp only [processDrug, getField, hjv, htv, hdv, hjd, Option.getD_some, hsd, hm]
  refine ⟨_, heq, ?_⟩
  exact shapedB_set hshape2 (shapedJD_set (shapedJD_of_get? hshape2 hjd)
    ⟨get?_set_isSome_of_isSome _ _ hP, get?_set_isSome_of_isSome _ _ hC⟩)

theorem processDrug_shaped {g : Graph} {drug : String} {row : Row} {src : String} {g2 : Graph}
    (hg : shapedB g = true) (h : processDrug g drug row src = .ok g2) : shapedB g2 = true := by
  cases hjf : getField row "journal" with
  | error e => simp [processDrug, hjf] at h
  | ok journal =>
    obtain ⟨hshape2, jd, sd, hjd, hsd, hP, hC⟩ := ensureNode_spec g drug journal hg
    have hchain : ((Dict.get? ((Dict.get? (ensureNode g drug journal) drug).getD [])
        journal).getD []) = sd := by
      rw [hjd, Option.getD_some, hsd, Option.getD_some]
    cases htf : getField row "title" with
    | error e => simp [processDrug, hjf, htf] at h
    | ok title =>
      cases hdf : getField row "date" with
      | error e => simp [processDrug, hjf, htf, hdf] at h
      | ok date =>
        cases hm : Dict.get? sd src with
        | none => simp [processDrug, hjf, htf, hdf, hchain, hm] at h
        | some mentions =>
          simp only [processDrug, hjf, htf, hdf, hjd, Option.getD_some, hsd, hm,
            Except.ok.injEq] at h
          rw [← h]
          exact shapedB_set hshape2 (shapedJD_set (shapedJD_of_get? hshape2 hjd)
            ⟨get?_set_isSome_of_isSome _ _ hP, get?_set_isSome_of_isSome _ _ hC⟩)

theorem processRowDrugs_shaped : ∀ (drugs : List String) {g g2 : Graph} {row : Row}
    {src : String}, shapedB g = true → processRowDrugs g row src drugs = .ok g2 →
    shapedB g2 = true
  | [], g, g2, row, src, hg, h => by
    simp only [processRowDrugs, Except.ok.injEq] at h
    rw [← h]
    exact hg
  | drug :: rest, g, g2, row, src, hg, h => by
    cases hpd : processDrug g drug row src with
    | error e => simp [processRowDrugs, hpd] at h
    | ok g1 =>
      simp only [processRowDrugs, hpd] at h
      exact processRowDrugs_shaped rest (processDrug_shaped hg hpd) h

theorem processRow_shaped {g g2 : Graph} {row : Row} {drugs_list : List String} {src : String}
    (hg : shapedB g = true) (h : processRow g row drugs_list src = .ok g2) :
    shapedB g2 = true := by
  cases htf : getField row "title" with
  | error e => simp [processRow, htf] at h
  | ok title =>
    simp only [processRow, htf] at h
    exact processRowDrugs_shaped _ hg h

/-- **C6.** Starting from a well-shaped (e.g. empty) base index, every
index `process_mentions` succeeds with satisfies the builder shape
invariant: every (drug, journal) node carries both source-tag keys
`"PubMed"` and `"Clinical Trial"` (possibly with empty lists); no node is
ever partially shaped. -/
theorem process_mentions_shape_invariant :
    ∀ (df : List Row) {drugs_list : List String} {source_name : String} {graph g2 : Graph},
      shapedB graph = true → process_mentions df drugs_list source_name graph = .ok g2 →
      shapedB g2 = true
  | [], drugs_list, src, graph, g2, hg, h => by
    simp only [process_mentions, Except.ok.injEq] at h
    rw [← h]
    exact hg
  | row :: rest, drugs_list, src, graph, g2, hg, h => by
    cases hpr : processRow graph row drugs_list src with
    | error e => simp [process_mentions, hpr] at h
    | ok g1 =>
      simp only [process_mentions, hpr] at h
      exact process_mentions_shape_invariant rest (processRow_shaped hg hpr) h

/-- The record of the builder witness. -/
def rowEx : Row := [("title", "About Drug1"), ("journal", "Journal1"), ("date", "2020-01-01")]

/-- The index the builder witness produces. -/
def builtEx : Graph :=
  [("Drug1", [("Journal1",
    [("PubMed", [⟨"About Drug1", "2020-01-01"⟩]), ("Clinical Trial", [])])])]

theorem process_mentions_shape_invariant_witness :
    shapedB ([] : Graph) = true ∧
      process_mentions [rowEx] ["Drug1"] "PubMed" [] = .ok builtEx ∧
      shapedB builtEx = true := by
  have h : process_mentions [rowEx] ["Drug1"] "PubMed" [] = .ok builtEx := by rfl
  have hg : shapedB ([] : Graph) = true := rfl
  exact ⟨hg, h, process_mentions_shape_invariant [rowEx] hg h⟩

theorem processRowDrugs_ok : ∀ (drugs : List String) (g : Graph) (row : Row) (src : String),
    shapedB g = true → (src = "PubMed" ∨ src = "Clinical Trial") →
    (Dict.get? row "journal").isSome = true → (Dict.get? row "title").isSome = true →
    (Dict.get? row "date").isSome = true →
    ∃ g2, processRowDrugs g row src drugs = .ok g2 ∧ shapedB g2 = true
  | [], g, row, src, hg, _, _, _, _ => ⟨g, rfl, hg⟩
  | drug :: rest, g, row, src, hg, hsrc, hjf, htf, hdf => by
    obtain ⟨g1, heq, hsh⟩ := processDrug_ok g drug row src hg hsrc hjf htf hdf
    obtain ⟨g2, heq2, hsh2⟩ := processRowDrugs_ok rest g1 row src hsh hsrc hjf htf hdf
    refine ⟨g2, ?_, hsh2⟩
    simp only [processRowDrugs, heq, heq2]

theorem processRow_ok (g : Graph) (row : Row) (drugs_list : List String) (src : String)
    (hg : shapedB g = true) (hsrc : src = "PubMed" ∨ src = "Clinical Trial")
    (hrow : hasRequiredFields row = true) :
    ∃ g2, processRow g row drugs_list src = .ok g2 ∧ shapedB g2 = true := by
  simp only [hasRequiredFields, Bool.and_eq_true] at hrow
  obtain ⟨⟨htf, hjf⟩, hdf⟩ := hrow
  obtain ⟨title, htv⟩ := Option.isSome_iff_exists.mp htf
  obtain ⟨g2, heq, hsh⟩ := processRowDrugs_ok (find_drugs_in_title title drugs_list)
    g row src hg hsrc hjf htf hdf
  refine ⟨g2, ?_, hsh⟩
  simp only [processRow, getField, htv, heq]

/-- **C8 (amended).** Given a well-shaped base index (e.g. the empty
default) and a source tag that is one of the two initialized keys
`"PubMed"`/`"Clinical Trial"` (as at every call site), `process_mentions`
completes without raising on every sequence of records that all carry the
required fields `title`, `journal` and `date`; conversely it can only
raise a key-lookup error, on a missing required field or on a
non-initialized source tag. -/
theorem process_mentions_total :
    ∀ (df : List Row) (drugs_list : List String) (source_name : String) (graph : Graph),
      shapedB graph = true →
      (source_name = "PubMed" ∨ source_name = "Clinical Trial") →
      (∀ row ∈ df, hasRequiredFields row = true) →
      ∃ g2, process_mentions df drugs_list source_name graph = .ok g2 ∧ shapedB g2 = true
  | [], drugs_list, src, graph, hg, _, _ => ⟨graph, rfl, hg⟩
  | row :: rest, drugs_list, src, graph, hg, hsrc, hrows => by
    obtain ⟨g1, heq, hsh⟩ := processRow_ok graph row drugs_list src hg hsrc
      (hrows row (List.mem_cons_self _ _))
    obtain ⟨g2, heq2, hsh2⟩ := process_mentions_total rest drugs_list src g1 hsh hsrc
      (fun r hr => hrows r (List.mem_cons_of_mem _ hr))
    refine ⟨g2, ?_, hsh2⟩
    simp only [process_mentions, heq, heq2]

/-- A record with all three required fields. -/
def rowEx8 : Row := [("title", "About Aspirin"), ("journal", "J1"), ("date", "2020-01-01")]

/-- **C8, counterexample to the claim as stated.** With a record carrying
all required fields, `process_mentions` still raises when `source_name`
is not one of the two initialized source tags: appending to
`graph[drug][journal]["Foo"]` raises `KeyError("Foo")` although no record
field is missing.  (No `MalformedRecordError` class exists in the code;
the raised error is Python's `KeyError`.) -/
theorem process_mentions_error_counterexample :
    hasRequiredFields rowEx8 = true ∧
      process_mentions [rowEx8] ["Aspirin"] "Foo" [] = .error (.keyError "Foo") := by
  exact ⟨rfl, by rfl⟩

theorem process_mentions_total_witness :
    shapedB ([] : Graph) = true ∧ ("PubMed" = "PubMed" ∨ "PubMed" = "Clinical Trial") ∧
      (∀ row ∈ [rowEx8], hasRequiredFields row = true) ∧
      ∃ g2, process_mentions [rowEx8] ["Aspirin"] "PubMed" [] = .ok g2 ∧ shapedB g2 = true := by
  refine ⟨rfl, Or.inl rfl, ?_, ?_⟩
  · intro row hrow
    rw [List.mem_singleton] at hrow
    rw [hrow]
    rfl
  · exact process_mentions_total [rowEx8] ["Aspirin"] "PubMed" [] rfl (Or.inl rfl)
      (by intro row hrow; rw [List.mem_singleton] at hrow; rw [hrow]; rfl)

/-! ### Heap model of `merge_mention_graphs` (identity and aliasing)

To settle the deep-copy-versus-alias behaviour, the Python object graph
is modelled explicitly: every dict and list is an object stored at an
address, dict values are addresses of sub-objects, and
`merge_mention_graphs` is re-read as a heap transformer.  The code never
copies: a subtree key present only in `graph_2` is adopted by storing the
secondary's address (`mentions_graph[drug] = drug_mentions` etc.), leaf
overlap `extend`s `graph_1`'s list object in place, and the function
returns `graph_1`'s address. -/

inductive Obj where
  | dict (entries : Dict Nat)
  | list (items : List Mention)
deriving DecidableEq, Repr

abbrev Heap : Type := List (Nat × Obj)

def heapGet : Heap → Nat → Option Obj
  | [], _ => none
  | (a0, o) :: rest, a => if a0 = a then some o else heapGet rest a

def heapSet : Heap → Nat → Obj → Heap
  | [], a, o => [(a, o)]
  | (a0, o0) :: rest, a, o =>
    if a0 = a then (a0, o) :: rest else (a0, o0) :: heapSet rest a o

def getDictObj (h : Heap) (a : Nat) : Option (Dict Nat) :=
  match heapGet h a with
  | some (.dict es) => some es
  | _ => none

def getListObj (h : Heap) (a : Nat) : Option (List Mention) :=
  match heapGet h a with
  | some (.list ms) => some ms
  | _ => none

/-- Source level of the heap merge: `a1` addresses
`mentions_graph[drug][journal]`, the list argument is the snapshot of
`graph_2[drug][journal].items()` (source → list address).  A missing
source key is assigned the secondary's list address (alias); a shared one
is `extend`ed in place on `graph_1`'s list object. -/
def hmergeSources : Heap → Nat → List (String × Nat) → Option Heap
  | h, _, [] => some h
  | h, a1, (source, la2) :: rest =>
    match getDictObj h a1 with
    | none => none
    | some es1 =>
      match Dict.get? es1 source with
      | none => hmergeSources (heapSet h a1 (.dict (Dict.set es1 source la2))) a1 rest
      | some la1 =>
        match getListObj h la1, getListObj h la2 with
        | some l1, some l2 => hmergeSources (heapSet h la1 (.list (l1 ++ l2))) a1 rest
        | _, _ => none

/-- Journal level of the heap merge. -/
def hmergeJournals : Heap → Nat → List (String × Nat) → Option Heap
  | h, _, [] => some h
  | h, a1, (journal, ja2) :: rest =>
    match getDictObj h a1 with
    | none => none
    | some es1 =>
      match Dict.get? es1 journal with
      | none => hmergeJournals (heapSet h a1 (.dict (Dict.set es1 journal ja2))) a1 rest
      | some ja1 =>
        match getDictObj h ja2 with
        | none => none
        | some sentries2 =>
          match hmergeSources h ja1 sentries2 with
          | none => none
          | some h2 => hmergeJournals h2 a1 rest

/-- Drug level of the heap merge. -/
def hmergeDrugs : Heap → Nat → List (String × Nat) → Option Heap
  | h, _, [] => some h
  | h, a1, (drug, da2) :: rest =>
    match getDictObj h a1 with
    | none => none
    | some es1 =>
      match Dict.get? es1 drug with
      | none => hmergeDrugs (heapSet h a1 (.dict (Dict.set es1 drug da2))) a1 rest
      | some da1 =>
        match getDictObj h da2 with
        | none => none
        | some jentries2 =>
          match hmergeJournals h da1 jentries2 with
          | none => none
          | some h2 => hmergeDrugs h2 a1 rest

/-- `merge_mention_graphs(graph_1, graph_2)` on the heap: merge the object
at `a2` into the object at `a1`; the returned index is the object at `a1`
itself (`return mentions_graph` where `mentions_graph = graph_1`). -/
def hmerge (h : Heap) (a1 a2 : Nat) : Option (Heap × Nat) :=
  match getDictObj h a2 with
  | none => none
  | some entries2 =>
    match hmergeDrugs h a1 entries2 with
    | none => none
    | some h2 => some (h2, a1)

/-- Read `root[d][j][s]` through the heap. -/
def readLeaf (h : Heap) (root : Nat) (d j s : String) : Option (List Mention) :=
  (getDictObj h root).bind fun es =>
    (Dict.get? es d).bind fun da =>
      (getDictObj h da).bind fun jes =>
        (Dict.get? jes j).bind fun ja =>
          (getDictObj h ja).bind fun ses =>
            (Dict.get? ses s).bind fun la => getListObj h la

/-- `root[d][j][s].append(m)`: mutate the addressed list object in
place. -/
def appendLeaf (h : Heap) (root : Nat) (d j s : String) (m : Mention) : Option Heap :=
  (getDictObj h root).bind fun es =>
    (Dict.get? es d).bind fun da =>
      (getDictObj h da).bind fun jes =>
        (Dict.get? jes j).bind fun ja =>
          (getDictObj h ja).bind fun ses =>
            (Dict.get? ses s).bind fun la =>
              (getListObj h la).map fun l => heapSet h la (.list (l ++ [m]))

/-- Initial heap: address 0 holds the empty primary index, address 1 the
secondary `{"Drug1": {"Journal1": {"PubMed": [mA], "Clinical Trial": []}}}`
whose sub-objects live at addresses 2-5. -/
def heapEx0 : Heap :=
  [(0, .dict []),
   (1, .dict [("Drug1", 2)]),
   (2, .dict [("Journal1", 3)]),
   (3, .dict [("PubMed", 4), ("Clinical Trial", 5)]),
   (4, .list [mA]),
   (5, .list [])]

/-- The heap after `hmerge heapEx0 0 1`: only the primary dict at address
0 changed, and its `"Drug1"` entry is the secondary's address 2. -/
def heapEx1 : Heap :=
  [(0, .dict [("Drug1", 2)]),
   (1, .dict [("Drug1", 2)]),
   (2, .dict [("Journal1", 3)]),
   (3, .dict [("PubMed", 4), ("Clinical Trial", 5)]),
   (4, .list [mA]),
   (5, .list [])]

/-- The heap after appending `mB` through the merged index: the shared
list object at address 4 grew. -/
def heapEx2 : Heap :=
  [(0, .dict [("Drug1", 2)]),
   (1, .dict [("Drug1", 2)]),
   (2, .dict [("Journal1", 3)]),
   (3, .dict [("PubMed", 4), ("Clinical Trial", 5)]),
   (4, .list [mA, mB]),
   (5, .list [])]

/-- **C4.** What the code does at a concrete input, on the explicit heap:
merging the empty primary (address 0) with the secondary (address 1)
adopts the secondary's `"Drug1"` subtree **by reference** — the merged
dict's `"Drug1"` entry is the very address 2 of the secondary's subtree,
not a copy.  The merge call itself mutates no object of the secondary
(only address 0 changes), but a later append through the merged index is
visible through the secondary index, contradicting the claim's deep-copy
and no-interference guarantees. -/
theorem merge_adopts_subtrees_by_reference :
    hmerge heapEx0 0 1 = some (heapEx1, 0) ∧
    getDictObj heapEx1 0 = some [("Drug1", 2)] ∧
    getDictObj heapEx0 1 = some [("Drug1", 2)] ∧
    (∀ a, a ≠ 0 → heapGet heapEx1 a = heapGet heapEx0 a) ∧
    readLeaf heapEx0 1 "Drug1" "Journal1" "PubMed" = some [mA] ∧
    readLeaf heapEx1 0 "Drug1" "Journal1" "PubMed" = some [mA] ∧
    appendLeaf heapEx1 0 "Drug1" "Journal1" "PubMed" mB = some heapEx2 ∧
    readLeaf heapEx2 1 "Drug1" "Journal1" "PubMed" = some [mA, mB] := by
  refine ⟨by rfl, by rfl, by rfl, ?_, by rfl, by rfl, by rfl, by rfl⟩
  intro a ha
  have h0a : ¬ (0 = a) := fun hh => ha hh.symm
  simp [heapEx1, heapEx0, heapGet, h0a]
